import Mathlib

/-!
Verification of the bintotxt utility (src/bintotxt/bintotxt.go): a decoder
for a fixed-layout binary graph dump (little-endian int16 header
`numVertices`, then repeated little-endian int16 triples
`(from, to, weight)` until end of input) and a text emitter that writes one
header line followed by one `(from, to, weight)` line per edge.

The Go code is embedded shallowly: a byte stream is a `List Nat` (each
element one byte, reduced mod 256 where its value matters), `int16` values
are `Int` obtained by the two-byte little-endian reconstruction with the
sign adjustment at 32768, fallible decoding returns `Except DecodeError`,
and the emitter produces the list of output lines in order.
-/

namespace BinToTxt

/-- An edge of the graph, mirroring the Go struct `Edge`: three int16
fields `from`, `to`, `weight` (here `fromV` because `from` is reserved).
Values are kept as `Int`; every value the decoder produces is in the
int16 range by construction of `toInt16`. -/
structure Edge where
  fromV : Int
  toV : Int
  weight : Int
deriving DecidableEq, Repr

/-- The errors `readGraph` can return, one constructor per distinct
`fmt.Errorf` site in the Go source (the file-open failure is I/O outside
the pure model and has no constructor here).  `invalidIndices` carries the
offending `from` and `to` values, as the Go message
"недопустимые индексы вершин: from=%d, to=%d" does. -/
inductive DecodeError where
  | headerTruncated
  | fromReadError
  | toReadError
  | weightReadError
  | invalidIndices (f t : Int)
deriving DecidableEq, Repr

/-- Little-endian reconstruction of a signed int16 from two bytes, as
`binary.Read(file, binary.LittleEndian, &x)` for `x : int16` does: the
unsigned value `b0 + 256*b1` reinterpreted in two's complement. -/
def toInt16 (b0 b1 : Nat) : Int :=
  if b0 % 256 + 256 * (b1 % 256) < 32768 then ((b0 % 256 + 256 * (b1 % 256) : Nat) : Int)
  else ((b0 % 256 + 256 * (b1 % 256) : Nat) : Int) - 65536

/-- The record-reading loop of `readGraph` (lines 38-68 of the Go source).
Each iteration attempts three consecutive two-byte reads.  `binary.Read`
returns `io.EOF` only when zero bytes are available, so an empty stream at
the start of a record is the normal stop; one leftover byte there is
`io.ErrUnexpectedEOF`, which the code reports as a failure to read `from`.
A short read of `to` or `weight` is likewise an error.  A complete triple
is validated against `0 <= from < numVertices` and
`0 <= to < numVertices` and appended in read order. -/
def readEdges (numVertices : Int) : List Nat → Except DecodeError (List Edge)
  | [] => .ok []
  | [_] => .error .fromReadError
  | [_, _] => .error .toReadError
  | [_, _, _] => .error .toReadError
  | [_, _, _, _] => .error .weightReadError
  | [_, _, _, _, _] => .error .weightReadError
  | a0 :: a1 :: b0 :: b1 :: c0 :: c1 :: rest =>
    let f := toInt16 a0 a1
    let t := toInt16 b0 b1
    let w := toInt16 c0 c1
    if f < 0 ∨ numVertices ≤ f ∨ t < 0 ∨ numVertices ≤ t then
      .error (.invalidIndices f t)
    else
      match readEdges numVertices rest with
      | .error e => .error e
      | .ok es => .ok (Edge.mk f t w :: es)

/-- The Go function `readGraph`, applied to the byte contents of the input
file: read `numVertices` (failing if fewer than two bytes exist), then run
the record loop; on success return the vertex count and the edges. -/
def readGraph (bytes : List Nat) : Except DecodeError (Int × List Edge) :=
  match bytes with
  | [] => .error .headerTruncated
  | [_] => .error .headerTruncated
  | h0 :: h1 :: rest =>
    let numVertices := toInt16 h0 h1
    match readEdges numVertices rest with
    | .error e => .error e
    | .ok edges => .ok (numVertices, edges)

/-- One output line per edge, as `fmt.Sprintf("(%d, %d, %d)", edge.from,
edge.to, edge.weight)` in the Go source: base-10 signed decimal, comma and
space separated, in parentheses, the raw field values with no offset. -/
def edgeLine (e : Edge) : String :=
  "(" ++ toString e.fromV ++ ", " ++ toString e.toV ++ ", " ++ toString e.weight ++ ")"

/-- The edge-writing loop of `writeEdges`: each iteration appends one line
to the output written so far. -/
def writeEdgesLoop : List Edge → List String → List String
  | [], acc => acc
  | e :: rest, acc => writeEdgesLoop rest (acc ++ [edgeLine e])

/-- The Go function `writeEdges`, modelled as the sequence of lines it
prints (each `fmt.Fprintln` call is one element): first the header line,
then the loop over the edges.  I/O write failures are outside the pure
model. -/
def writeEdges (edges : List Edge) : List String :=
  writeEdgesLoop edges ["Список ребер графа:"]

/-- The encoder the spec describes in §6, written from the spec because the
repository contains no text-to-binary direction: little-endian two-byte
encoding of an int16 value (two's complement). -/
def encodeInt16 (x : Int) : List Nat :=
  [(x % 65536).toNat % 256, (x % 65536).toNat / 256]

/-- Spec §6 record encoding: the three int16 fields in order. -/
def encodeEdge (e : Edge) : List Nat :=
  encodeInt16 e.fromV ++ encodeInt16 e.toV ++ encodeInt16 e.weight

/-- Spec §6 file encoding: the vertex count, then every record in order. -/
def encodeGraph (n : Int) (es : List Edge) : List Nat :=
  encodeInt16 n ++ (es.map encodeEdge).flatten

/-- Spec §7 error taxonomy: truncation errors are format errors, the
out-of-range index error is a validation error. -/
def DecodeError.isFormat : DecodeError → Bool
  | .headerTruncated => true
  | .fromReadError => true
  | .toReadError => true
  | .weightReadError => true
  | .invalidIndices _ _ => false

/-- Six raw bytes forming one on-disk record (spec §6: a 48-bit record is
three consecutive little-endian int16 fields).  Used to state
record-aligned properties of the byte stream. -/
structure RawRecord where
  a0 : Nat
  a1 : Nat
  b0 : Nat
  b1 : Nat
  c0 : Nat
  c1 : Nat

/-- The six bytes of a record, in stream order. -/
def RawRecord.bytes (r : RawRecord) : List Nat :=
  [r.a0, r.a1, r.b0, r.b1, r.c0, r.c1]

/-- The decoded `from` field of a raw record. -/
def RawRecord.fromVal (r : RawRecord) : Int := toInt16 r.a0 r.a1

/-- The decoded `to` field of a raw record. -/
def RawRecord.toVal (r : RawRecord) : Int := toInt16 r.b0 r.b1

instance {ε α : Type} [DecidableEq ε] [DecidableEq α] : DecidableEq (Except ε α) := fun x y =>
  match x, y with
  | .ok a, .ok b =>
    if h : a = b then .isTrue (by rw [h])
    else .isFalse (by intro hc; cases hc; exact h rfl)
  | .error a, .error b =>
    if h : a = b then .isTrue (by rw [h])
    else .isFalse (by intro hc; cases hc; exact h rfl)
  | .ok _, .error _ => .isFalse (by intro hc; cases hc)
  | .error _, .ok _ => .isFalse (by intro hc; cases hc)

lemma toInt16_encode (x : Int) (h1 : -32768 ≤ x) (h2 : x < 32768) :
    toInt16 ((x % 65536).toNat % 256) ((x % 65536).toNat / 256) = x := by
  unfold toInt16
  split <;> omega

lemma toInt16_lb (b0 b1 : Nat) : -32768 ≤ toInt16 b0 b1 := by
  unfold toInt16
  split <;> omega

lemma toInt16_ub (b0 b1 : Nat) : toInt16 b0 b1 < 32768 := by
  unfold toInt16
  split <;> omega

lemma readEdges_cons6 (n : Int) (a0 a1 b0 b1 c0 c1 : Nat) (rest : List Nat) :
    readEdges n (a0 :: a1 :: b0 :: b1 :: c0 :: c1 :: rest) =
      if toInt16 a0 a1 < 0 ∨ n ≤ toInt16 a0 a1 ∨ toInt16 b0 b1 < 0 ∨ n ≤ toInt16 b0 b1 then
        .error (.invalidIndices (toInt16 a0 a1) (toInt16 b0 b1))
      else
        match readEdges n rest with
        | .error e => .error e
        | .ok es => .ok (Edge.mk (toInt16 a0 a1) (toInt16 b0 b1) (toInt16 c0 c1) :: es) := rfl

lemma readGraph_cons (h0 h1 : Nat) (rest : List Nat) :
    readGraph (h0 :: h1 :: rest) =
      match readEdges (toInt16 h0 h1) rest with
      | .error e => .error e
      | .ok edges => .ok (toInt16 h0 h1, edges) := rfl

/-- Running the record loop over a block of complete records followed by
arbitrary further bytes either aborts on an out-of-range index of one of
the records, or consumes every record and continues on the remaining
bytes, prepending one decoded edge per record. -/
lemma readEdges_records (n : Int) (records : List RawRecord) (tail : List Nat) :
    (∃ f t, readEdges n ((records.map RawRecord.bytes).flatten ++ tail)
        = .error (.invalidIndices f t) ∧ (f < 0 ∨ n ≤ f ∨ t < 0 ∨ n ≤ t)) ∨
    (∃ pre : List Edge, pre.length = records.length ∧
        readEdges n ((records.map RawRecord.bytes).flatten ++ tail)
          = Except.map (fun es => pre ++ es) (readEdges n tail)) := by
  induction records with
  | nil =>
    right
    refine ⟨[], rfl, ?_⟩
    simp only [List.map_nil, List.flatten_nil, List.nil_append]
    cases readEdges n tail <;> simp [Except.map]
  | cons r rs ih =>
    simp only [List.map_cons, List.flatten_cons, List.append_assoc, RawRecord.bytes,
      List.cons_append, List.nil_append]
    rw [readEdges_cons6]
    by_cases hviol : toInt16 r.a0 r.a1 < 0 ∨ n ≤ toInt16 r.a0 r.a1 ∨
        toInt16 r.b0 r.b1 < 0 ∨ n ≤ toInt16 r.b0 r.b1
    · left
      exact ⟨toInt16 r.a0 r.a1, toInt16 r.b0 r.b1, by rw [if_pos hviol], hviol⟩
    · rw [if_neg hviol]
      rcases ih with ⟨f, t, heq, hv⟩ | ⟨pre, hlen, heq⟩
      · left
        exact ⟨f, t, by rw [heq], hv⟩
      · right
        refine ⟨Edge.mk (toInt16 r.a0 r.a1) (toInt16 r.b0 r.b1) (toInt16 r.c0 r.c1) :: pre,
          by simp [hlen], ?_⟩
        rw [heq]
        cases readEdges n tail <;> simp [Except.map]

/-- When every record of the block has in-range `from` and `to`, the loop
consumes the whole block, one edge per record, then continues on the
remaining bytes. -/
lemma readEdges_records_valid (n : Int) (records : List RawRecord)
    (hvalid : ∀ r ∈ records, 0 ≤ r.fromVal ∧ r.fromVal < n ∧ 0 ≤ r.toVal ∧ r.toVal < n)
    (tail : List Nat) :
    ∃ pre : List Edge, pre.length = records.length ∧
      readEdges n ((records.map RawRecord.bytes).flatten ++ tail)
        = Except.map (fun es => pre ++ es) (readEdges n tail) := by
  induction records with
  | nil =>
    refine ⟨[], rfl, ?_⟩
    simp only [List.map_nil, List.flatten_nil, List.nil_append]
    cases readEdges n tail <;> simp [Except.map]
  | cons r rs ih =>
    obtain ⟨hf0, hf1, ht0, ht1⟩ := hvalid r (List.mem_cons_self r rs)
    obtain ⟨pre, hlen, heq⟩ := ih (fun x hx => hvalid x (List.mem_cons_of_mem r hx))
    simp only [List.map_cons, List.flatten_cons, List.append_assoc, RawRecord.bytes,
      List.cons_append, List.nil_append]
    rw [readEdges_cons6]
    rw [if_neg (by simp only [RawRecord.fromVal, RawRecord.toVal] at hf0 hf1 ht0 ht1; omega)]
    refine ⟨Edge.mk (toInt16 r.a0 r.a1) (toInt16 r.b0 r.b1) (toInt16 r.c0 r.c1) :: pre,
      by simp [hlen], ?_⟩
    rw [heq]
    cases readEdges n tail <;> simp [Except.map]

/-- A non-empty block of at most five bytes makes the record loop fail
with one of the three truncation errors, all format errors. -/
lemma readEdges_short (n : Int) (tail : List Nat)
    (hlo : 1 ≤ tail.length) (hhi : tail.length ≤ 5) :
    ∃ e, readEdges n tail = .error e ∧ e.isFormat = true := by
  rcases tail with _ | ⟨x1, _ | ⟨x2, _ | ⟨x3, _ | ⟨x4, _ | ⟨x5, _ | ⟨x6, r⟩⟩⟩⟩⟩⟩
  · simp at hlo
  · exact ⟨.fromReadError, rfl, rfl⟩
  · exact ⟨.toReadError, rfl, rfl⟩
  · exact ⟨.toReadError, rfl, rfl⟩
  · exact ⟨.weightReadError, rfl, rfl⟩
  · exact ⟨.weightReadError, rfl, rfl⟩
  · simp [List.length] at hhi

/-- Every body whose length is a multiple of six is a block of complete
records: the record-aligned statements cover all inputs of length
`2 + 6*k`. -/
lemma exists_records (k : Nat) : ∀ body : List Nat, body.length = 6 * k →
    ∃ records : List RawRecord, records.length = k ∧
      (records.map RawRecord.bytes).flatten = body := by
  induction k with
  | zero =>
    intro body h
    rw [Nat.mul_zero] at h
    rw [List.length_eq_zero.mp h]
    exact ⟨[], rfl, rfl⟩
  | succ m ih =>
    intro body h
    rcases body with _ | ⟨x1, _ | ⟨x2, _ | ⟨x3, _ | ⟨x4, _ | ⟨x5, _ | ⟨x6, rest⟩⟩⟩⟩⟩⟩ <;>
      simp [List.length] at h <;> try omega
    obtain ⟨rs, hlen, hflat⟩ := ih rest (by omega)
    exact ⟨RawRecord.mk x1 x2 x3 x4 x5 x6 :: rs, by simp [hlen],
      by simp [RawRecord.bytes, hflat]⟩

/-- Decoding the spec encoding of a sequence of valid int16 edges yields
exactly that sequence. -/
lemma readEdges_encode (n : Int) (es : List Edge) (hn : n < 32768)
    (hE : ∀ e ∈ es, 0 ≤ e.fromV ∧ e.fromV < n ∧ 0 ≤ e.toV ∧ e.toV < n ∧
      -32768 ≤ e.weight ∧ e.weight < 32768) :
    readEdges n ((es.map encodeEdge).flatten) = .ok es := by
  induction es with
  | nil => rfl
  | cons e rest ih =>
    obtain ⟨hf0, hf1, ht0, ht1, hw0, hw1⟩ := hE e (List.mem_cons_self e rest)
    have hrest := ih (fun x hx => hE x (List.mem_cons_of_mem e hx))
    simp only [List.map_cons, List.flatten_cons, encodeEdge, encodeInt16,
      List.append_assoc, List.cons_append, List.nil_append]
    rw [readEdges_cons6]
    rw [toInt16_encode e.fromV (by omega) (by omega),
      toInt16_encode e.toV (by omega) (by omega),
      toInt16_encode e.weight hw0 hw1]
    rw [if_neg (by omega)]
    rw [hrest]

/-- The head of a successful record-loop result was validated: its `from`
field is in range. -/
lemma readEdges_ok_cons (n : Int) (bytes : List Nat) (e : Edge) (es : List Edge)
    (h : readEdges n bytes = .ok (e :: es)) : 0 ≤ e.fromV ∧ e.fromV < n := by
  rcases bytes with _ | ⟨x1, _ | ⟨x2, _ | ⟨x3, _ | ⟨x4, _ | ⟨x5, _ | ⟨x6, rest⟩⟩⟩⟩⟩⟩ <;>
    try simp [readEdges] at h
  by_cases hcond : toInt16 x1 x2 < 0 ∨ n ≤ toInt16 x1 x2 ∨
      toInt16 x3 x4 < 0 ∨ n ≤ toInt16 x3 x4
  · rw [if_pos hcond] at h
    simp at h
  · rw [if_neg hcond] at h
    cases hrec : readEdges n rest with
    | error err => rw [hrec] at h; simp at h
    | ok es2 =>
      rw [hrec] at h
      simp only [Except.ok.injEq, List.cons.injEq] at h
      obtain ⟨he, _⟩ := h
      rw [← he]
      show 0 ≤ toInt16 x1 x2 ∧ toInt16 x1 x2 < n
      push_neg at hcond
      omega

/-- A successful decode that produced at least one edge has a positive
vertex count: the first edge passed the range check. -/
lemma readGraph_ok_pos (bytes : List Nat) (n : Int) (edges : List Edge)
    (h : readGraph bytes = .ok (n, edges)) (hne : edges ≠ []) : 1 ≤ n := by
  rcases bytes with _ | ⟨h0, _ | ⟨h1, rest⟩⟩
  · simp [readGraph] at h
  · simp [readGraph] at h
  · rw [readGraph_cons] at h
    cases hrec : readEdges (toInt16 h0 h1) rest with
    | error e => rw [hrec] at h; simp at h
    | ok es =>
      rw [hrec] at h
      simp only [Except.ok.injEq, Prod.mk.injEq] at h
      obtain ⟨hn, he⟩ := h
      rcases es with _ | ⟨e, es2⟩
      · exact absurd (by rw [← he]) hne
      · have := readEdges_ok_cons (toInt16 h0 h1) rest e es2 hrec
        omega

/-- The writing loop emits previously written lines unchanged, then one
line per remaining edge in order. -/
lemma writeEdgesLoop_eq (edges : List Edge) : ∀ acc,
    writeEdgesLoop edges acc = acc ++ edges.map edgeLine := by
  induction edges with
  | nil => intro acc; simp [writeEdgesLoop]
  | cons e rest ih => intro acc; simp [writeEdgesLoop, ih]

/-- Claim C1: for every vertex count `N ≥ 0` (an int16, so `N < 32768`)
and every edge sequence `E` of int16 triples whose `from` and `to` lie in
`[0, N)`, decoding the byte string formed by the little-endian int16
encoding of `N` followed by the little-endian int16 triples of `E` in
order succeeds and returns exactly `N` and exactly `E` in the same
order. -/
theorem C1_encode_decode_roundtrip (n : Int) (es : List Edge)
    (hn0 : 0 ≤ n) (hn1 : n < 32768)
    (hE : ∀ e ∈ es, 0 ≤ e.fromV ∧ e.fromV < n ∧ 0 ≤ e.toV ∧ e.toV < n ∧
      -32768 ≤ e.weight ∧ e.weight < 32768) :
    readGraph (encodeGraph n es) = .ok (n, es) := by
  unfold encodeGraph encodeInt16
  simp only [List.cons_append, List.nil_append]
  rw [readGraph_cons]
  rw [toInt16_encode n (by omega) hn1]
  rw [readEdges_encode n es hn1 hE]

/-- Witness for C1: a two-vertex, two-edge snapshot round-trips. -/
theorem C1_witness :
    (0 : Int) ≤ 2 ∧ (2 : Int) < 32768 ∧
    readGraph (encodeGraph 2 [Edge.mk 0 1 10, Edge.mk 1 0 (-5)])
      = .ok (2, [Edge.mk 0 1 10, Edge.mk 1 0 (-5)]) :=
  ⟨by decide, by decide,
    C1_encode_decode_roundtrip 2 [Edge.mk 0 1 10, Edge.mk 1 0 (-5)]
      (by decide) (by decide) (by decide)⟩

/-- Claim C2: whenever the input carries, at a record boundary after any
block of complete records, a complete record whose decoded `from` or `to`
is outside `[0, numVertices)`, the whole decode fails with the
invalid-indices error carrying an offending pair, and no edge list is
returned; in particular the header 3 with the single record
`(from=3, to=0, weight=5)` is rejected with the error naming `from=3`. -/
theorem C2_invalid_index_aborts :
    (∀ (h0 h1 : Nat) (records : List RawRecord) (a0 a1 b0 b1 c0 c1 : Nat)
      (suf : List Nat),
      (toInt16 a0 a1 < 0 ∨ toInt16 h0 h1 ≤ toInt16 a0 a1 ∨
        toInt16 b0 b1 < 0 ∨ toInt16 h0 h1 ≤ toInt16 b0 b1) →
      ∃ f t, readGraph (h0 :: h1 :: ((records.map RawRecord.bytes).flatten ++
          a0 :: a1 :: b0 :: b1 :: c0 :: c1 :: suf))
        = .error (.invalidIndices f t) ∧
        (f < 0 ∨ toInt16 h0 h1 ≤ f ∨ t < 0 ∨ toInt16 h0 h1 ≤ t)) ∧
    readGraph [3, 0, 3, 0, 0, 0, 5, 0] = .error (.invalidIndices 3 0) := by
  refine ⟨?_, by decide⟩
  intro h0 h1 records a0 a1 b0 b1 c0 c1 suf hviol
  rcases readEdges_records (toInt16 h0 h1) records
      (a0 :: a1 :: b0 :: b1 :: c0 :: c1 :: suf) with
    ⟨f, t, heq, hv⟩ | ⟨pre, hlen, heq⟩
  · exact ⟨f, t, by rw [readGraph_cons, heq], hv⟩
  · refine ⟨toInt16 a0 a1, toInt16 b0 b1, ?_, hviol⟩
    rw [readGraph_cons, heq, readEdges_cons6, if_pos hviol]
    rfl

/-- Witness for C2: header 2, one valid record `(0, 1, 7)`, then the
record `(5, 0, 9)` whose `from` is out of range, then a trailing byte. -/
theorem C2_witness :
    (toInt16 5 0 < 0 ∨ toInt16 2 0 ≤ toInt16 5 0 ∨
      toInt16 0 0 < 0 ∨ toInt16 2 0 ≤ toInt16 0 0) ∧
    ∃ f t, readGraph (2 :: 0 :: (([RawRecord.mk 0 0 1 0 7 0].map RawRecord.bytes).flatten ++
        5 :: 0 :: 0 :: 0 :: 9 :: 0 :: [1]))
      = .error (.invalidIndices f t) ∧
      (f < 0 ∨ toInt16 2 0 ≤ f ∨ t < 0 ∨ toInt16 2 0 ≤ t) :=
  ⟨by decide,
    C2_invalid_index_aborts.1 2 0 [RawRecord.mk 0 0 1 0 7 0] 5 0 0 0 9 0 [1] (by decide)⟩

/-- Claim C3: the emitter writes the header line first, then one line per
edge in input order, each line the parenthesised, comma-and-space
separated base-10 rendering of the raw decoded field values with no
offset; the spec example `numVertices=2`, edges `[(0,1,10), (1,0,-5)]`
decodes and emits body lines `(0, 1, 10)` then `(1, 0, -5)`. -/
theorem C3_emit_format :
    (∀ edges, writeEdges edges = "Список ребер графа:" :: edges.map edgeLine) ∧
    readGraph [2, 0, 0, 0, 1, 0, 10, 0, 1, 0, 0, 0, 251, 255]
      = .ok (2, [Edge.mk 0 1 10, Edge.mk 1 0 (-5)]) ∧
    writeEdges [Edge.mk 0 1 10, Edge.mk 1 0 (-5)]
      = ["Список ребер графа:", "(0, 1, 10)", "(1, 0, -5)"] := by
  refine ⟨?_, by decide, by decide⟩
  intro edges
  unfold writeEdges
  rw [writeEdgesLoop_eq]
  rfl

/-- Counterexample to claim C4 as stated: the code never checks the sign
of `numVertices`, so the two-byte input holding -1 and no records decodes
successfully to a negative vertex count. -/
theorem C4_counterexample :
    readGraph [255, 255] = .ok (-1, []) ∧ ¬ (0 ≤ (-1 : Int)) := by decide

/-- Claim C4 (amended): a successful decode that returned at least one
edge has a non-negative vertex count (the first edge passed the range
check); with an empty edge list the sign of the vertex count is not
checked. -/
theorem C4_nonneg_when_edges (bytes : List Nat) (n : Int) (edges : List Edge)
    (h : readGraph bytes = .ok (n, edges)) (hne : edges ≠ []) : 0 ≤ n := by
  have := readGraph_ok_pos bytes n edges h hne
  omega

/-- Witness for the amended C4 at a one-edge input. -/
theorem C4_witness :
    readGraph [1, 0, 0, 0, 0, 0, 5, 0] = .ok (1, [Edge.mk 0 0 5]) ∧ (0 : Int) ≤ 1 :=
  ⟨by decide,
    C4_nonneg_when_edges [1, 0, 0, 0, 0, 0, 5, 0] 1 [Edge.mk 0 0 5] (by decide) (by decide)⟩

/-- Claim C5: an input of exactly `2 + 6*k` bytes whose `k` records all
have `from` and `to` in `[0, numVertices)` decodes without error to
exactly `k` edges; exhausting the input at a record boundary is the
normal termination (`readEdges` on the empty remainder returns the edges
accumulated so far). -/
theorem C5_aligned_decode (h0 h1 : Nat) (records : List RawRecord)
    (hvalid : ∀ r ∈ records, 0 ≤ r.fromVal ∧ r.fromVal < toInt16 h0 h1 ∧
      0 ≤ r.toVal ∧ r.toVal < toInt16 h0 h1) :
    ∃ edges, readGraph (h0 :: h1 :: (records.map RawRecord.bytes).flatten)
      = .ok (toInt16 h0 h1, edges) ∧ edges.length = records.length := by
  obtain ⟨pre, hlen, heq⟩ :=
    readEdges_records_valid (toInt16 h0 h1) records hvalid []
  rw [List.append_nil] at heq
  refine ⟨pre, ?_, hlen⟩
  rw [readGraph_cons, heq]
  simp [readEdges, Except.map]

/-- Witness for C5: header 2 and the single valid record `(0, 1, 10)`. -/
theorem C5_witness :
    ∃ edges, readGraph (2 :: 0 :: (([RawRecord.mk 0 0 1 0 10 0].map RawRecord.bytes).flatten))
      = .ok (toInt16 2 0, edges) ∧ edges.length = [RawRecord.mk 0 0 1 0 10 0].length :=
  C5_aligned_decode 2 0 [RawRecord.mk 0 0 1 0 10 0] (by decide)

/-- Counterexample to claim C6 as stated: a 9-byte input (`k = 1`,
`r = 1`) whose complete record has an out-of-range `from` fails with the
validation error, not a format error, so not every `2 + 6*k + r` input
fails with a format error. -/
theorem C6_counterexample :
    [0, 0, 1, 0, 0, 0, 0, 0, 7].length = 2 + 6 * 1 + 1 ∧
    readGraph [0, 0, 1, 0, 0, 0, 0, 0, 7] = .error (.invalidIndices 1 0) ∧
    (DecodeError.invalidIndices 1 0).isFormat = false := by decide

/-- Claim C6 (amended): an input of length `2 + 6*k + r` with
`1 ≤ r ≤ 5` whose `k` complete records all have `from` and `to` in
range fails decode with a format (truncated-record) error, and no edges
are returned (the error result carries no partial record). -/
theorem C6_truncated_record (h0 h1 : Nat) (records : List RawRecord)
    (hvalid : ∀ r ∈ records, 0 ≤ r.fromVal ∧ r.fromVal < toInt16 h0 h1 ∧
      0 ≤ r.toVal ∧ r.toVal < toInt16 h0 h1)
    (tail : List Nat) (hlo : 1 ≤ tail.length) (hhi : tail.length ≤ 5) :
    ∃ e, readGraph (h0 :: h1 :: ((records.map RawRecord.bytes).flatten ++ tail))
      = .error e ∧ e.isFormat = true := by
  obtain ⟨pre, hlen, heq⟩ :=
    readEdges_records_valid (toInt16 h0 h1) records hvalid tail
  obtain ⟨e, herr, hfmt⟩ := readEdges_short (toInt16 h0 h1) tail hlo hhi
  refine ⟨e, ?_, hfmt⟩
  rw [readGraph_cons, heq, herr]
  rfl

/-- Witness for the amended C6: header 1, no complete records, three
trailing bytes. -/
theorem C6_witness :
    ∃ e, readGraph (1 :: 0 :: ((([] : List RawRecord).map RawRecord.bytes).flatten ++ [9, 9, 9]))
      = .error e ∧ e.isFormat = true :=
  C6_truncated_record 1 0 [] (by decide) [9, 9, 9] (by decide) (by decide)

/-- Claim C7: any input of fewer than two bytes (the empty input and
every one-byte input) fails decode with the truncated-header format
error, returning neither a vertex count nor edges. -/
theorem C7_truncated_header (bytes : List Nat) (h : bytes.length < 2) :
    readGraph bytes = .error .headerTruncated := by
  rcases bytes with _ | ⟨x, _ | ⟨y, rest⟩⟩
  · rfl
  · rfl
  · simp [List.length] at h
    omega

/-- Witness for C7 at a one-byte input. -/
theorem C7_witness :
    [(5 : Nat)].length < 2 ∧ readGraph [5] = .error .headerTruncated :=
  ⟨by decide, C7_truncated_header [5] (by decide)⟩

/-- Claim C8: the minimum int16 weight -32768 (bytes `0x00 0x80`)
decodes unchanged and is emitted as the decimal text `-32768`; its spec
encoding is those same two bytes. -/
theorem C8_min_weight_roundtrip :
    readGraph [1, 0, 0, 0, 0, 0, 0, 128] = .ok (1, [Edge.mk 0 0 (-32768)]) ∧
    writeEdges [Edge.mk 0 0 (-32768)] = ["Список ребер графа:", "(0, 0, -32768)"] ∧
    encodeInt16 (-32768) = [0, 128] := by decide

/-- Claim C9: when the decoded vertex count is non-positive, any input
containing at least one complete record fails with the invalid-indices
validation error, since no index can lie in `[0, numVertices)`;
equivalently every successful decode returning a non-empty edge sequence
has `numVertices ≥ 1`. -/
theorem C9_nonpositive_vertex_count :
    (∀ (h0 h1 a0 a1 b0 b1 c0 c1 : Nat) (rest : List Nat), toInt16 h0 h1 ≤ 0 →
      ∃ f t, readGraph (h0 :: h1 :: a0 :: a1 :: b0 :: b1 :: c0 :: c1 :: rest)
        = .error (.invalidIndices f t)) ∧
    (∀ (bytes : List Nat) (n : Int) (edges : List Edge),
      readGraph bytes = .ok (n, edges) → edges ≠ [] → 1 ≤ n) := by
  constructor
  · intro h0 h1 a0 a1 b0 b1 c0 c1 rest hn
    rw [readGraph_cons, readEdges_cons6, if_pos (by omega)]
    exact ⟨toInt16 a0 a1, toInt16 b0 b1, rfl⟩
  · exact fun bytes n edges h hne => readGraph_ok_pos bytes n edges h hne

/-- Witness for C9: header 0 with one complete record is rejected. -/
theorem C9_witness :
    toInt16 0 0 ≤ 0 ∧
    ∃ f t, readGraph [0, 0, 1, 0, 2, 0, 3, 0] = .error (.invalidIndices f t) :=
  ⟨by decide, C9_nonpositive_vertex_count.1 0 0 1 0 2 0 3 0 [] (by decide)⟩

/-- Claim C10: for the empty edge sequence the emitter outputs exactly
the header line and nothing else. -/
theorem C10_empty_edges_header_only : writeEdges [] = ["Список ребер графа:"] := rfl

end BinToTxt
